import Mathlib

/-!
# Verification of the khiva matrix-profile core

Shallow embedding of the matrix-profile core of the khiva time-series
library (header `src/include/khiva/matrix.h`, C binding
`src/bindings/c/src/library.cpp`).  The algorithm bodies (MASS, STOMP,
the top-N selectors, the library backend state) are not part of the
visible sources, so they are modelled from the specification; each such
definition carries a doc comment starting with `Modelled from the spec:`.
Series are embedded as lists of rationals (exact arithmetic in place of
the library's floating point); distances live in `ℝ` because the
z-normalized Euclidean distance involves square roots.
-/

namespace khiva

namespace matrix

/-- Modelled from the spec: sum of the window of length `m` starting at
position `i` of series `t` (StatisticsCache, spec §4.1; the implementation
is not under `src/`).  Out-of-range samples read as `0` via `getD`. -/
def winSum (t : List ℚ) (m i : ℕ) : ℚ :=
  ∑ k ∈ Finset.range m, t.getD (i + k) 0

/-- Modelled from the spec: mean of the window of length `m` starting at
position `i` of series `t` (spec §4.1). -/
def winMean (t : List ℚ) (m i : ℕ) : ℚ :=
  winSum t m i / m

/-- Modelled from the spec: sum of squares over the window of length `m`
starting at position `i` of series `t` (spec §4.1, cumulative
sum-of-squares). -/
def winSumSq (t : List ℚ) (m i : ℕ) : ℚ :=
  ∑ k ∈ Finset.range m, (t.getD (i + k) 0) ^ 2

/-- Modelled from the spec: population variance of the window of length
`m` starting at position `i` (spec §4.1; the standard deviation is its
square root). -/
def winVar (t : List ℚ) (m i : ℕ) : ℚ :=
  winSumSq t m i / m - (winMean t m i) ^ 2

/-- Modelled from the spec: the sequence of window means for all
`len(t) - m + 1` window start positions (spec §4.1, SlidingStatistics). -/
def movMean (t : List ℚ) (m : ℕ) : List ℚ :=
  (List.range (t.length - m + 1)).map (winMean t m)

/-- Modelled from the spec: the sequence of window variances for all
`len(t) - m + 1` window start positions (spec §4.1). -/
def movVar (t : List ℚ) (m : ℕ) : List ℚ :=
  (List.range (t.length - m + 1)).map (winVar t m)

/-- Modelled from the spec: direct sliding dot product of query `q`
against the window of `t` starting at `i` (spec §4.2). -/
def slidingDot (q t : List ℚ) (i : ℕ) : ℚ :=
  ∑ k ∈ Finset.range q.length, q.getD k 0 * t.getD (i + k) 0

/-- Modelled from the spec: full linear convolution of `a` and `b` read
at output position `s`: `∑ j ≤ s, a[j] * b[s-j]`.  This is the exact
value the FFT-based convolution of spec §4.2 computes. -/
def convAt (a b : List ℚ) (s : ℕ) : ℚ :=
  ∑ j ∈ Finset.range (s + 1), a.getD j 0 * b.getD (s - j) 0

/-- Modelled from the spec: the sliding dot product as MASS obtains it,
by convolving the reversed query with the series (spec §4.2, the
convolution-theorem shortcut). -/
def convDot (q t : List ℚ) (i : ℕ) : ℚ :=
  convAt q.reverse t (i + q.length - 1)

/-- Modelled from the spec: sliding dot product between window `i` of
`ta` and window `j` of `tb`, the quantity STOMP maintains through its
constant-time recurrence (spec §4.3). -/
def winDot (ta tb : List ℚ) (m i j : ℕ) : ℚ :=
  ∑ k ∈ Finset.range m, ta.getD (i + k) 0 * tb.getD (j + k) 0

/-- Modelled from the spec: standard deviation of the window of length
`m` starting at `i`, the square root of the window variance (spec §4.1,
§3 SlidingStatistics: `std ≥ 0`). -/
noncomputable def winStd (t : List ℚ) (m i : ℕ) : ℝ :=
  Real.sqrt ((winVar t m i : ℚ) : ℝ)

/-- Modelled from the spec: the z-normalized Euclidean distance between
window `i` of `ta` and window `j` of `tb`, obtained from the dot product
and the cached statistics by the formula of spec §4.2. -/
noncomputable def distZ (ta tb : List ℚ) (m i j : ℕ) : ℝ :=
  Real.sqrt (max 0 (2 * (m : ℝ) *
    (1 - (((winDot ta tb m i j : ℚ) : ℝ) -
        (m : ℝ) * ((winMean ta m i : ℚ) : ℝ) * ((winMean tb m j : ℚ) : ℝ)) /
      ((m : ℝ) * winStd ta m i * winStd tb m j))))

/-- Modelled from the spec: the z-normalized distance MASS assigns to
position `i`, from the convolution-based dot product and the sliding
statistics (spec §4.2):
`dist[i] = sqrt(max(0, 2*m*(1 - (dot[i] - m*meanQ*meanT[i]) / (m*stdQ*stdT[i]))))`. -/
noncomputable def massDistAt (q t : List ℚ) (i : ℕ) : ℝ :=
  Real.sqrt (max 0 (2 * (q.length : ℝ) *
    (1 - (((convDot q t i : ℚ) : ℝ) -
        (q.length : ℝ) * ((winMean q q.length 0 : ℚ) : ℝ) *
          ((winMean t q.length i : ℚ) : ℝ)) /
      ((q.length : ℝ) * winStd q q.length 0 * winStd t q.length i))))

/-- Modelled from the spec: the distance profile `mass(q, t)` of one
query against one series, one entry per subsequence start position
(`src/include/khiva/matrix.h`, `mass`; body not under `src/`). -/
noncomputable def mass (q t : List ℚ) : List ℝ :=
  (List.range (t.length - q.length + 1)).map (massDistAt q t)

/-- The spec's direct `O(n·m)` z-normalized Euclidean distance: the
plain Euclidean distance between the two windows after each is
normalized to zero mean and unit variance (spec §8, glossary).  This is
the reference definition the convolution-based `mass` is compared
against in the refinement claim. -/
noncomputable def naiveDistAt (q t : List ℚ) (i : ℕ) : ℝ :=
  Real.sqrt (∑ k ∈ Finset.range q.length,
    ((((q.getD k 0 : ℚ) : ℝ) - ((winMean q q.length 0 : ℚ) : ℝ)) /
        winStd q q.length 0 -
      (((t.getD (i + k) 0 : ℚ) : ℝ) - ((winMean t q.length i : ℚ) : ℝ)) /
        winStd t q.length i) ^ 2)

/-- Modelled from the spec: the index realizing the cross-join matrix
profile minimum at position `i`: the (first) minimizer of the distance
from window `i` of `ta` over all window positions of `tb`
(`matrix.h`, `stomp(ta, tb, m, ...)`; body not under `src/`). -/
noncomputable def stompIndexAt (ta tb : List ℚ) (m i : ℕ) : ℕ :=
  ((List.range (tb.length - m + 1)).argmin (distZ ta tb m i)).getD 0

/-- Modelled from the spec: the cross-join matrix profile value at
position `i`: the distance from window `i` of `ta` to its nearest
neighbor window in `tb` (spec §4.3). -/
noncomputable def stompDistAt (ta tb : List ℚ) (m i : ℕ) : ℝ :=
  distZ ta tb m i (stompIndexAt ta tb m i)

/-- Modelled from the spec: the STOMP cross-join matrix profile between
`ta` and `tb`: distance array and index array, one entry per subsequence
of `ta` (`matrix.h`, `stomp(ta, tb, m, ...)`). -/
noncomputable def stomp (ta tb : List ℚ) (m : ℕ) : List ℝ × List ℕ :=
  ((List.range (ta.length - m + 1)).map (stompDistAt ta tb m),
    (List.range (ta.length - m + 1)).map (stompIndexAt ta tb m))

/-- Modelled from the spec: the trivial-match exclusion zone of the
self-join, `|i - j| < m/4` (spec §4.3; the inequality is taken over the
rationals, i.e. `4·|i-j| < m`). -/
def inExclusionZone (m i j : ℕ) : Bool :=
  decide (4 * ((i : ℤ) - (j : ℤ)).natAbs < m)

/-- Modelled from the spec: the candidate positions the self-join
minimum at `i` ranges over; when `useZone` is set (the library default)
the trivial-match zone around `i` is removed (spec §4.3). -/
def selfCands (len m i : ℕ) (useZone : Bool) : List ℕ :=
  (List.range (len - m + 1)).filter (fun j => !(useZone && inExclusionZone m i j))

/-- Modelled from the spec: index realizing the self-join minimum at
position `i` (first minimizer over the candidate positions). -/
noncomputable def stompSelfIndexAt (t : List ℚ) (m i : ℕ) (useZone : Bool) : ℕ :=
  ((selfCands t.length m i useZone).argmin (distZ t t m i)).getD 0

/-- Modelled from the spec: self-join matrix profile value at position
`i`, the distance to the nearest non-trivial match (spec §4.3). -/
noncomputable def stompSelfDistAt (t : List ℚ) (m i : ℕ) (useZone : Bool) : ℝ :=
  distZ t t m i (stompSelfIndexAt t m i useZone)

/-- Modelled from the spec: STOMP self-join with a configurable
trivial-match exclusion zone (spec §4.3 calls the zone configurable;
`useZone = false` disables it). -/
noncomputable def stompSelfZ (t : List ℚ) (m : ℕ) (useZone : Bool) :
    List ℝ × List ℕ :=
  ((List.range (t.length - m + 1)).map (fun i => stompSelfDistAt t m i useZone),
    (List.range (t.length - m + 1)).map (fun i => stompSelfIndexAt t m i useZone))

/-- Modelled from the spec: the STOMP self-join entry point
(`matrix.h`, `stomp(t, m, ...)`), which always filters trivial matches. -/
noncomputable def stompSelf (t : List ℚ) (m : ℕ) : List ℝ × List ℕ :=
  stompSelfZ t m true

/-- Modelled from the spec: the generic TopKSelector loop (spec §4.4):
repeatedly pick the extremum (minimum when `minMode`, maximum otherwise)
of `vals` over the remaining candidate positions, record it, and drop
every candidate within `r` of the pick — and, when `selfJoin`, within
`r` of the pick's stored match index.  Stops early when no candidate is
left. -/
noncomputable def topKAux (minMode : Bool) (vals : List ℝ) (idx : List ℕ)
    (r : ℕ) (selfJoin : Bool) : ℕ → List ℕ → List (ℕ × ℝ)
  | 0, _ => []
  | n + 1, cands =>
    match (cond minMode (cands.argmin (fun p => vals.getD p 0))
      (cands.argmax (fun p => vals.getD p 0))) with
    | none => []
    | some p =>
      (p, vals.getD p 0) ::
        topKAux minMode vals idx r selfJoin n
          (cands.filter (fun x => decide (r < ((x : ℤ) - (p : ℤ)).natAbs) &&
            (!selfJoin || decide (r < ((x : ℤ) - (idx.getD p 0 : ℤ)).natAbs))))

/-- Modelled from the spec: best-N occurrences of one query in one
series — MASS distance profile, then TopKSelector minima with exclusion
radius `r` and no mirror exclusion (spec §4.5). -/
noncomputable def findBestNOccurrencesPair (q t : List ℚ) (n r : ℕ) :
    List (ℕ × ℝ) :=
  topKAux true (mass q t) [] r false n (List.range (mass q t).length)

/-- Modelled from the spec: batched best-N occurrence search over
several queries and several series; batch elements never interact
(`matrix.h`, `findBestNOccurrences`; body not under `src/`). -/
noncomputable def findBestNOccurrences (qs ts : List (List ℚ)) (n r : ℕ) :
    List (List (List (ℕ × ℝ))) :=
  ts.map (fun t => qs.map (fun q => findBestNOccurrencesPair q t n r))

/-- Modelled from the spec: best-N motif extraction from a previously
computed matrix profile — TopKSelector minima with exclusion radius
derived from `m`, mirror exclusion through the profile's index array
when `selfJoin` (`matrix.h`, `findBestNMotifs`; spec §4.6). -/
noncomputable def findBestNMotifs (profile : List ℝ) (index : List ℕ)
    (m n : ℕ) (selfJoin : Bool) : List (ℕ × ℝ) :=
  topKAux true profile index (m / 4) selfJoin n (List.range profile.length)

/-- The `findBestNMotifs` call with the `selfJoin` argument left to its
declared default, which `matrix.h` declares as `bool selfJoin = false`. -/
noncomputable def findBestNMotifsDefault (profile : List ℝ) (index : List ℕ)
    (m n : ℕ) : List (ℕ × ℝ) :=
  findBestNMotifs profile index m n false

/-- Modelled from the spec: best-N discord extraction — TopKSelector in
maxima mode over the matrix profile (`matrix.h`, `findBestNDiscords`;
spec §4.6). -/
noncomputable def findBestNDiscords (profile : List ℝ) (index : List ℕ)
    (m n : ℕ) (selfJoin : Bool) : List (ℕ × ℝ) :=
  topKAux false profile index (m / 4) selfJoin n (List.range profile.length)

/-- The `findBestNDiscords` call with the `selfJoin` argument left to
its declared default, which `matrix.h` declares as `bool selfJoin = false`. -/
noncomputable def findBestNDiscordsDefault (profile : List ℝ) (index : List ℕ)
    (m n : ℕ) : List (ℕ × ℝ) :=
  findBestNDiscords profile index m n false

/-- Modelled from the spec: the error taxonomy of spec §7. -/
inductive KhivaError
  | InvalidWindow
  | DegenerateQuery
  | DimensionMismatch
  | InsufficientData
deriving DecidableEq

/-- Modelled from the spec: the sequence of window standard deviations
for all `len(t) - m + 1` window start positions (spec §4.1). -/
noncomputable def movStd (t : List ℚ) (m : ℕ) : List ℝ :=
  (List.range (t.length - m + 1)).map (winStd t m)

/-- Modelled from the spec: the StatisticsCache contract (spec §4.1):
mean and standard-deviation sequences of length `len(t) - m + 1`,
failing with `InvalidWindow` when `m < 2` or `m > len(t)`. -/
noncomputable def slidingStats (t : List ℚ) (m : ℕ) :
    Except KhivaError (List ℚ × List ℝ) :=
  if m < 2 ∨ t.length < m then .error .InvalidWindow
  else .ok (movMean t m, movStd t m)

/-- Modelled from the spec: `mass` with the entry-point window check it
inherits from the sliding-statistics computation (spec §4.1, §7). -/
noncomputable def massChecked (q t : List ℚ) : Except KhivaError (List ℝ) :=
  match slidingStats t q.length with
  | .error e => .error e
  | .ok _ => .ok (mass q t)

/-- Modelled from the spec: the cross-join `stomp` entry point with the
window check on both input series (spec §4.3, §7). -/
noncomputable def stompChecked (ta tb : List ℚ) (m : ℕ) :
    Except KhivaError (List ℝ × List ℕ) :=
  match slidingStats ta m with
  | .error e => .error e
  | .ok _ =>
    match slidingStats tb m with
    | .error e => .error e
    | .ok _ => .ok (stomp ta tb m)

/-- Modelled from the spec: the self-join `stomp` entry point with the
window check (spec §4.3, §7). -/
noncomputable def stompSelfChecked (t : List ℚ) (m : ℕ) :
    Except KhivaError (List ℝ × List ℕ) :=
  match slidingStats t m with
  | .error e => .error e
  | .ok _ => .ok (stompSelf t m)

end matrix

namespace library

/-- Modelled from the spec: the selectable compute backends of the
array runtime (spec §1 out-of-scope collaborator: CPU/OpenCL/CUDA plus
a default); `khiva::library::Backend` is not under `src/`. -/
inductive Backend
  | default
  | cpu
  | cuda
  | opencl
deriving DecidableEq

/-- Modelled from the spec: the integer value each backend is cast
to/from at the C boundary (the values mirror the array runtime's
backend enumeration). -/
def Backend.toInt : Backend → Int
  | .default => 0
  | .cpu => 1
  | .cuda => 2
  | .opencl => 4

/-- Modelled from the spec: the partial inverse cast used when an `int`
crosses the C boundary into a backend value; integers that denote no
backend are not accepted. -/
def backendOfInt (i : Int) : Option Backend :=
  if i = 0 then some .default
  else if i = 1 then some .cpu
  else if i = 2 then some .cuda
  else if i = 4 then some .opencl
  else none

/-- Modelled from the spec: the process-wide library configuration
state (spec §9: backend selection, current device, memory ceiling),
reframed as an explicit state value. -/
structure LibraryState where
  backend : Backend
  device : Int
  memoryGB : ℚ
deriving DecidableEq

/-- Modelled from the spec: `khiva::library::setBackend` — stores the
chosen backend, leaving the rest of the configuration unchanged. -/
def setBackend (b : Backend) (s : LibraryState) : LibraryState :=
  ⟨b, s.device, s.memoryGB⟩

/-- Modelled from the spec: `khiva::library::getBackend` — reads the
current backend without modifying the state. -/
def getBackend (s : LibraryState) : Backend :=
  s.backend

/-- The C binding `set_backend` (`src/bindings/c/src/library.cpp`):
casts the incoming `int` to a backend value and calls `setBackend`;
only accepted integer values denote a backend. -/
def set_backend (i : Int) (s : LibraryState) : Option LibraryState :=
  (backendOfInt i).map (fun b => setBackend b s)

/-- The C binding `get_backend` (`src/bindings/c/src/library.cpp`):
writes the current backend cast to `int` through the out-parameter and
leaves the library state untouched; modelled as returning the written
value together with the (unchanged) state. -/
def get_backend (s : LibraryState) : Int × LibraryState :=
  ((getBackend s).toInt, s)

end library

namespace matrix

theorem convDot_eq_slidingDot (q t : List ℚ) (i : ℕ) :
    convDot q t i = slidingDot q t i := by
  unfold convDot convAt slidingDot
  rcases Nat.eq_zero_or_pos q.length with hm | hm
  · rw [hm]
    simp only [Finset.range_zero, Finset.sum_empty]
    apply Finset.sum_eq_zero
    intro j _
    have hz : q.reverse.getD j 0 = 0 := by
      apply List.getD_eq_default
      simp [hm]
    rw [hz, zero_mul]
  · have hsub : Finset.range q.length ⊆ Finset.range (i + q.length - 1 + 1) := by
      apply Finset.range_subset.2
      omega
    rw [← Finset.sum_subset hsub]
    · rw [← Finset.sum_range_reflect
        (fun j => q.reverse.getD j 0 * t.getD (i + q.length - 1 - j) 0) q.length]
      apply Finset.sum_congr rfl
      intro k hk
      have hk' : k < q.length := Finset.mem_range.1 hk
      have hrev : q.reverse.getD (q.length - 1 - k) 0 = q.getD k 0 := by
        have hlen : q.length - 1 - k < q.reverse.length := by
          rw [List.length_reverse]
          omega
        rw [List.getD_eq_getElem _ _ hlen, List.getElem_reverse,
          List.getD_eq_getElem]
        case hn => exact hk'
        congr 1
        omega
      have hidx : i + q.length - 1 - (q.length - 1 - k) = i + k := by omega
      rw [hrev, hidx]
    · intro j _ hj
      have hz : q.reverse.getD j 0 = 0 := by
        apply List.getD_eq_default
        rw [List.length_reverse]
        exact Nat.le_of_not_lt (fun h => hj (Finset.mem_range.2 h))
      rw [hz, zero_mul]

theorem mass_getD (q t : List ℚ) (i : ℕ) (hi : i < t.length - q.length + 1) :
    (mass q t).getD i 0 = massDistAt q t i := by
  unfold mass
  have hlen : i < ((List.range (t.length - q.length + 1)).map (massDistAt q t)).length := by
    simpa using hi
  rw [List.getD_eq_getElem _ _ hlen, List.getElem_map, List.getElem_range]

theorem winStd_sq {t : List ℚ} {m i : ℕ} (h : 0 ≤ winVar t m i) :
    winStd t m i ^ 2 = ((winVar t m i : ℚ) : ℝ) := by
  apply Real.sq_sqrt
  exact_mod_cast h

theorem winStd_pos {t : List ℚ} {m i : ℕ} (h : 0 < winVar t m i) :
    0 < winStd t m i := by
  apply Real.sqrt_pos.2
  exact_mod_cast h

theorem sum_cast_eq_mul_mean (t : List ℚ) (m i : ℕ) (hm : 0 < m) :
    ∑ k ∈ Finset.range m, ((t.getD (i + k) 0 : ℚ) : ℝ) =
      (m : ℝ) * ((winMean t m i : ℚ) : ℝ) := by
  have hm' : (m : ℝ) ≠ 0 := by
    exact_mod_cast hm.ne'
  have hsum : ∑ k ∈ Finset.range m, ((t.getD (i + k) 0 : ℚ) : ℝ) =
      ((winSum t m i : ℚ) : ℝ) := by
    unfold winSum
    push_cast
    rfl
  rw [hsum]
  unfold winMean
  push_cast
  field_simp

theorem sum_sq_cast_eq (t : List ℚ) (m i : ℕ) (hm : 0 < m) :
    ∑ k ∈ Finset.range m, ((t.getD (i + k) 0 : ℚ) : ℝ) ^ 2 =
      (m : ℝ) * (((winVar t m i : ℚ) : ℝ) + ((winMean t m i : ℚ) : ℝ) ^ 2) := by
  have hm' : (m : ℝ) ≠ 0 := by
    exact_mod_cast hm.ne'
  have hsum : ∑ k ∈ Finset.range m, ((t.getD (i + k) 0 : ℚ) : ℝ) =
      ((winSum t m i : ℚ) : ℝ) := by
    unfold winSum
    push_cast
    rfl
  have hsq : ∑ k ∈ Finset.range m, ((t.getD (i + k) 0 : ℚ) : ℝ) ^ 2 =
      ((winSumSq t m i : ℚ) : ℝ) := by
    unfold winSumSq
    push_cast
    rfl
  rw [hsq]
  unfold winVar winMean
  push_cast
  field_simp
  ring

theorem sum_dot_cast_eq (ta tb : List ℚ) (m i j : ℕ) :
    ∑ k ∈ Finset.range m, ((ta.getD (i + k) 0 : ℚ) : ℝ) * ((tb.getD (j + k) 0 : ℚ) : ℝ) =
      ((winDot ta tb m i j : ℚ) : ℝ) := by
  unfold winDot
  push_cast
  rfl

theorem distZ_inner_eq (ta tb : List ℚ) (m i j : ℕ) (hm : 0 < m)
    (hva : 0 < winVar ta m i) (hvb : 0 < winVar tb m j) :
    2 * (m : ℝ) * (1 - (((winDot ta tb m i j : ℚ) : ℝ) -
        (m : ℝ) * ((winMean ta m i : ℚ) : ℝ) * ((winMean tb m j : ℚ) : ℝ)) /
      ((m : ℝ) * winStd ta m i * winStd tb m j)) =
    ∑ k ∈ Finset.range m,
      ((((ta.getD (i + k) 0 : ℚ) : ℝ) - ((winMean ta m i : ℚ) : ℝ)) / winStd ta m i -
        (((tb.getD (j + k) 0 : ℚ) : ℝ) - ((winMean tb m j : ℚ) : ℝ)) / winStd tb m j) ^ 2 := by
  have hm' : (0 : ℝ) < (m : ℝ) := by
    exact_mod_cast hm
  have hva' : (0 : ℝ) < ((winVar ta m i : ℚ) : ℝ) := by
    exact_mod_cast hva
  have hvb' : (0 : ℝ) < ((winVar tb m j : ℚ) : ℝ) := by
    exact_mod_cast hvb
  have hσa : winStd ta m i ^ 2 = ((winVar ta m i : ℚ) : ℝ) := winStd_sq hva.le
  have hσb : winStd tb m j ^ 2 = ((winVar tb m j : ℚ) : ℝ) := winStd_sq hvb.le
  have hσa0 : 0 < winStd ta m i := winStd_pos hva
  have hσb0 : 0 < winStd tb m j := winStd_pos hvb
  have hterm : ∀ k,
      ((((ta.getD (i + k) 0 : ℚ) : ℝ) - ((winMean ta m i : ℚ) : ℝ)) / winStd ta m i -
        (((tb.getD (j + k) 0 : ℚ) : ℝ) - ((winMean tb m j : ℚ) : ℝ)) / winStd tb m j) ^ 2 =
      (((ta.getD (i + k) 0 : ℚ) : ℝ) - ((winMean ta m i : ℚ) : ℝ)) ^ 2 / ((winVar ta m i : ℚ) : ℝ) +
        (((tb.getD (j + k) 0 : ℚ) : ℝ) - ((winMean tb m j : ℚ) : ℝ)) ^ 2 / ((winVar tb m j : ℚ) : ℝ) -
        (2 / (winStd ta m i * winStd tb m j)) *
          ((((ta.getD (i + k) 0 : ℚ) : ℝ) - ((winMean ta m i : ℚ) : ℝ)) *
            (((tb.getD (j + k) 0 : ℚ) : ℝ) - ((winMean tb m j : ℚ) : ℝ))) := by
    intro k
    rw [← hσa, ← hσb]
    field_simp
    ring
  rw [Finset.sum_congr rfl (fun k _ => hterm k)]
  rw [Finset.sum_sub_distrib, Finset.sum_add_distrib, ← Finset.sum_div,
    ← Finset.sum_div, ← Finset.mul_sum]
  have h1 : ∑ k ∈ Finset.range m,
      (((ta.getD (i + k) 0 : ℚ) : ℝ) - ((winMean ta m i : ℚ) : ℝ)) ^ 2 =
      (m : ℝ) * ((winVar ta m i : ℚ) : ℝ) := by
    have hpt : ∀ k, (((ta.getD (i + k) 0 : ℚ) : ℝ) - ((winMean ta m i : ℚ) : ℝ)) ^ 2 =
        ((ta.getD (i + k) 0 : ℚ) : ℝ) ^ 2 -
          2 * ((winMean ta m i : ℚ) : ℝ) * ((ta.getD (i + k) 0 : ℚ) : ℝ) +
          ((winMean ta m i : ℚ) : ℝ) ^ 2 := fun k => by ring
    rw [Finset.sum_congr rfl (fun k _ => hpt k), Finset.sum_add_distrib,
      Finset.sum_sub_distrib, ← Finset.mul_sum, sum_sq_cast_eq ta m i hm,
      sum_cast_eq_mul_mean ta m i hm, Finset.sum_const, Finset.card_range,
      nsmul_eq_mul]
    ring
  have h2 : ∑ k ∈ Finset.range m,
      (((tb.getD (j + k) 0 : ℚ) : ℝ) - ((winMean tb m j : ℚ) : ℝ)) ^ 2 =
      (m : ℝ) * ((winVar tb m j : ℚ) : ℝ) := by
    have hpt : ∀ k, (((tb.getD (j + k) 0 : ℚ) : ℝ) - ((winMean tb m j : ℚ) : ℝ)) ^ 2 =
        ((tb.getD (j + k) 0 : ℚ) : ℝ) ^ 2 -
          2 * ((winMean tb m j : ℚ) : ℝ) * ((tb.getD (j + k) 0 : ℚ) : ℝ) +
          ((winMean tb m j : ℚ) : ℝ) ^ 2 := fun k => by ring
    rw [Finset.sum_congr rfl (fun k _ => hpt k), Finset.sum_add_distrib,
      Finset.sum_sub_distrib, ← Finset.mul_sum, sum_sq_cast_eq tb m j hm,
      sum_cast_eq_mul_mean tb m j hm, Finset.sum_const, Finset.card_range,
      nsmul_eq_mul]
    ring
  have h3 : ∑ k ∈ Finset.range m,
      ((((ta.getD (i + k) 0 : ℚ) : ℝ) - ((winMean ta m i : ℚ) : ℝ)) *
        (((tb.getD (j + k) 0 : ℚ) : ℝ) - ((winMean tb m j : ℚ) : ℝ))) =
      ((winDot ta tb m i j : ℚ) : ℝ) -
        (m : ℝ) * ((winMean ta m i : ℚ) : ℝ) * ((winMean tb m j : ℚ) : ℝ) := by
    have hpt : ∀ k, ((((ta.getD (i + k) 0 : ℚ) : ℝ) - ((winMean ta m i : ℚ) : ℝ)) *
        (((tb.getD (j + k) 0 : ℚ) : ℝ) - ((winMean tb m j : ℚ) : ℝ))) =
        ((ta.getD (i + k) 0 : ℚ) : ℝ) * ((tb.getD (j + k) 0 : ℚ) : ℝ) -
          ((winMean tb m j : ℚ) : ℝ) * ((ta.getD (i + k) 0 : ℚ) : ℝ) -
          ((winMean ta m i : ℚ) : ℝ) * ((tb.getD (j + k) 0 : ℚ) : ℝ) +
          ((winMean ta m i : ℚ) : ℝ) * ((winMean tb m j : ℚ) : ℝ) := fun k => by ring
    rw [Finset.sum_congr rfl (fun k _ => hpt k), Finset.sum_add_distrib,
      Finset.sum_sub_distrib, Finset.sum_sub_distrib, ← Finset.mul_sum,
      ← Finset.mul_sum, sum_dot_cast_eq ta tb m i j,
      sum_cast_eq_mul_mean ta m i hm, sum_cast_eq_mul_mean tb m j hm,
      Finset.sum_const, Finset.card_range, nsmul_eq_mul]
    ring
  rw [h1, h2, h3, ← hσa, ← hσb]
  field_simp
  ring

theorem distZ_eq_sqrt_znorm_sum (ta tb : List ℚ) (m i j : ℕ) (hm : 0 < m)
    (hva : 0 < winVar ta m i) (hvb : 0 < winVar tb m j) :
    distZ ta tb m i j =
      Real.sqrt (∑ k ∈ Finset.range m,
        ((((ta.getD (i + k) 0 : ℚ) : ℝ) - ((winMean ta m i : ℚ) : ℝ)) / winStd ta m i -
          (((tb.getD (j + k) 0 : ℚ) : ℝ) - ((winMean tb m j : ℚ) : ℝ)) / winStd tb m j) ^ 2) := by
  unfold distZ
  rw [distZ_inner_eq ta tb m i j hm hva hvb]
  congr 1
  apply max_eq_right
  apply Finset.sum_nonneg
  intro k _
  exact sq_nonneg _

theorem distZ_nonneg (ta tb : List ℚ) (m i j : ℕ) : 0 ≤ distZ ta tb m i j :=
  Real.sqrt_nonneg _

theorem winStats_congr_of_windows_eq (t : List ℚ) (m i j : ℕ)
    (hwin : ∀ k < m, t.getD (i + k) 0 = t.getD (j + k) 0) :
    winMean t m i = winMean t m j ∧ winVar t m i = winVar t m j := by
  have hsum : winSum t m i = winSum t m j := by
    unfold winSum
    exact Finset.sum_congr rfl (fun k hk => hwin k (Finset.mem_range.1 hk))
  have hsumsq : winSumSq t m i = winSumSq t m j := by
    unfold winSumSq
    exact Finset.sum_congr rfl (fun k hk => by rw [hwin k (Finset.mem_range.1 hk)])
  constructor
  · unfold winMean
    rw [hsum]
  · unfold winVar winMean
    rw [hsum, hsumsq]

theorem distZ_zero_of_windows_eq (t : List ℚ) (m i j : ℕ) (hm : 0 < m)
    (hva : 0 < winVar t m i)
    (hwin : ∀ k < m, t.getD (i + k) 0 = t.getD (j + k) 0) :
    distZ t t m i j = 0 := by
  obtain ⟨hmean, hvar⟩ := winStats_congr_of_windows_eq t m i j hwin
  have hvb : 0 < winVar t m j := hvar ▸ hva
  rw [distZ_eq_sqrt_znorm_sum t t m i j hm hva hvb]
  have hz : ∑ k ∈ Finset.range m,
      ((((t.getD (i + k) 0 : ℚ) : ℝ) - ((winMean t m i : ℚ) : ℝ)) / winStd t m i -
        (((t.getD (j + k) 0 : ℚ) : ℝ) - ((winMean t m j : ℚ) : ℝ)) / winStd t m j) ^ 2 = 0 := by
    apply Finset.sum_eq_zero
    intro k hk
    have hσ : winStd t m i = winStd t m j := by
      unfold winStd
      rw [hvar]
    rw [hwin k (Finset.mem_range.1 hk), hmean, hσ]
    ring
  rw [hz, Real.sqrt_zero]

theorem slidingDot_eq_winDot (q t : List ℚ) (i : ℕ) :
    slidingDot q t i = winDot q t q.length 0 i := by
  unfold slidingDot winDot
  apply Finset.sum_congr rfl
  intro k _
  rw [Nat.zero_add]

theorem massDistAt_eq_distZ (q t : List ℚ) (i : ℕ) :
    massDistAt q t i = distZ q t q.length 0 i := by
  unfold massDistAt distZ
  rw [convDot_eq_slidingDot, slidingDot_eq_winDot]

theorem stompSelfZ_profile_getD (t : List ℚ) (m i : ℕ) (z : Bool)
    (hi : i < t.length - m + 1) :
    (stompSelfZ t m z).1.getD i 0 = stompSelfDistAt t m i z := by
  unfold stompSelfZ
  have hlen : i <
      ((List.range (t.length - m + 1)).map (fun p => stompSelfDistAt t m p z)).length := by
    simpa using hi
  rw [List.getD_eq_getElem _ _ hlen, List.getElem_map, List.getElem_range]

theorem selfCands_false_eq_range (len m i : ℕ) :
    selfCands len m i false = List.range (len - m + 1) := by
  unfold selfCands
  simp

theorem mem_selfCands_out_of_zone {len m i j' : ℕ}
    (h : j' ∈ selfCands len m i true) :
    m ≤ 4 * (((i : ℤ) - (j' : ℤ)).natAbs) := by
  unfold selfCands at h
  have h2 := (List.mem_filter.1 h).2
  simp only [Bool.true_and, inExclusionZone, Bool.not_eq_true', decide_eq_false_iff_not,
    not_lt] at h2
  exact h2

theorem stompSelfIndexAt_spec (t : List ℚ) (m i : ℕ) (z : Bool)
    (hne : selfCands t.length m i z ≠ []) :
    stompSelfIndexAt t m i z ∈ selfCands t.length m i z ∧
      ∀ j' ∈ selfCands t.length m i z,
        distZ t t m i (stompSelfIndexAt t m i z) ≤ distZ t t m i j' := by
  obtain ⟨p, hp⟩ : ∃ p, (selfCands t.length m i z).argmin (distZ t t m i) = some p := by
    rcases h : (selfCands t.length m i z).argmin (distZ t t m i) with _ | p
    · exact absurd (List.argmin_eq_none.1 h) hne
    · exact ⟨p, rfl⟩
  unfold stompSelfIndexAt
  rw [hp]
  simp only [Option.getD_some]
  refine ⟨List.argmin_mem (by rw [hp]; rfl), ?_⟩
  intro j' hj'
  exact List.le_of_mem_argmin hj' (by rw [hp]; rfl)

/-- **C3.** For every series `t` and window `m`, the self-join
`stomp(t, m)` excludes trivial matches: the profile value at `i` is
realized by, and is minimal over, only candidate positions `j'` with
`|i - j'| ≥ m/4`, so a zero distance can come only from a genuine match
outside the exclusion zone; and for a series containing an exact
repeated subsequence (window `i` equal to window `j`), with the
exclusion zone disabled the profile is `0` at both occurrences. -/
theorem stompSelf_exclusion_zone (t : List ℚ) (m i j : ℕ)
    (hm : 0 < m)
    (hi : i < t.length - m + 1) (hj : j < t.length - m + 1)
    (hvi : 0 < winVar t m i)
    (hwin : ∀ k < m, t.getD (i + k) 0 = t.getD (j + k) 0)
    (hne : selfCands t.length m i true ≠ []) :
    ((stompSelf t m).1.getD i 0 = distZ t t m i (stompSelfIndexAt t m i true) ∧
      m ≤ 4 * (((i : ℤ) - (stompSelfIndexAt t m i true : ℤ)).natAbs) ∧
      ∀ j' ∈ selfCands t.length m i true,
        (stompSelf t m).1.getD i 0 ≤ distZ t t m i j') ∧
    ((stompSelf t m).1.getD i 0 = 0 →
      ∃ j' : ℕ, m ≤ 4 * (((i : ℤ) - (j' : ℤ)).natAbs) ∧ distZ t t m i j' = 0) ∧
    ((stompSelfZ t m false).1.getD i 0 = 0 ∧ (stompSelfZ t m false).1.getD j 0 = 0) := by
  obtain ⟨hmem, hmin⟩ := stompSelfIndexAt_spec t m i true hne
  have hval : (stompSelf t m).1.getD i 0 = distZ t t m i (stompSelfIndexAt t m i true) := by
    unfold stompSelf
    rw [stompSelfZ_profile_getD t m i true hi]
    rfl
  have hvj : 0 < winVar t m j := by
    rw [← (winStats_congr_of_windows_eq t m i j hwin).2]
    exact hvi
  have hwin' : ∀ k < m, t.getD (j + k) 0 = t.getD (i + k) 0 :=
    fun k hk => (hwin k hk).symm
  have hdij : distZ t t m i j = 0 := distZ_zero_of_windows_eq t m i j hm hvi hwin
  have hdji : distZ t t m j i = 0 := distZ_zero_of_windows_eq t m j i hm hvj hwin'
  refine ⟨⟨hval, mem_selfCands_out_of_zone hmem, ?_⟩, ?_, ?_, ?_⟩
  · intro j' hj'
    rw [hval]
    exact hmin j' hj'
  · intro h0
    refine ⟨stompSelfIndexAt t m i true, mem_selfCands_out_of_zone hmem, ?_⟩
    rw [← hval]
    exact h0
  · have hne0 : selfCands t.length m i false ≠ [] := by
      rw [selfCands_false_eq_range]
      exact List.ne_nil_of_mem (List.mem_range.2 hi)
    obtain ⟨hmem0, hmin0⟩ := stompSelfIndexAt_spec t m i false hne0
    have hle : distZ t t m i (stompSelfIndexAt t m i false) ≤ 0 := by
      rw [← hdij]
      apply hmin0
      rw [selfCands_false_eq_range]
      exact List.mem_range.2 hj
    rw [stompSelfZ_profile_getD t m i false hi]
    exact le_antisymm hle (distZ_nonneg t t m i _)
  · have hne0 : selfCands t.length m j false ≠ [] := by
      rw [selfCands_false_eq_range]
      exact List.ne_nil_of_mem (List.mem_range.2 hj)
    obtain ⟨hmem0, hmin0⟩ := stompSelfIndexAt_spec t m j false hne0
    have hle : distZ t t m j (stompSelfIndexAt t m j false) ≤ 0 := by
      rw [← hdji]
      apply hmin0
      rw [selfCands_false_eq_range]
      exact List.mem_range.2 hi
    rw [stompSelfZ_profile_getD t m j false hj]
    exact le_antisymm hle (distZ_nonneg t t m j _)

theorem stompSelf_exclusion_zone_witness :
    (2 : ℕ) ≤ 4 * (((0 : ℤ) - (stompSelfIndexAt [1, 2, 1, 2] 2 0 true : ℤ)).natAbs) :=
  (stompSelf_exclusion_zone [1, 2, 1, 2] 2 0 2 (by decide) (by decide) (by decide)
    (by norm_num [winVar, winSumSq, winMean, winSum, Finset.sum_range_succ])
    (by decide) (by decide)).1.2.1

theorem stompIndexAt_lt (ta tb : List ℚ) (m i : ℕ) :
    stompIndexAt ta tb m i < tb.length - m + 1 := by
  obtain ⟨p, hp⟩ :
      ∃ p, (List.range (tb.length - m + 1)).argmin (distZ ta tb m i) = some p := by
    rcases h : (List.range (tb.length - m + 1)).argmin (distZ ta tb m i) with _ | p
    · have hnil := List.argmin_eq_none.1 h
      have hlen := congrArg List.length hnil
      simp at hlen
    · exact ⟨p, rfl⟩
  unfold stompIndexAt
  rw [hp]
  simpa using List.mem_range.1 (List.argmin_mem (show p ∈ _ by rw [hp]; rfl))

/-- **C4.** For every pair of series `ta`, `tb` and window `m`, the
cross-join matrix profile `stomp(ta, tb, m)` is shape-consistent: the
distance and index arrays have length `len(ta) - m + 1`, and every
entry of the index array lies in `[0, len(tb) - m]`. -/
theorem stomp_shape_consistent (ta tb : List ℚ) (m : ℕ) :
    (stomp ta tb m).1.length = ta.length - m + 1 ∧
    (stomp ta tb m).2.length = ta.length - m + 1 ∧
    ∀ p ∈ (stomp ta tb m).2, p ≤ tb.length - m := by
  refine ⟨by simp [stomp], by simp [stomp], ?_⟩
  intro p hp
  unfold stomp at hp
  simp only [List.mem_map, List.mem_range] at hp
  obtain ⟨i, _, rfl⟩ := hp
  have := stompIndexAt_lt ta tb m i
  omega

theorem topKAux_mem (minMode : Bool) (vals : List ℝ) (idx : List ℕ) (r : ℕ)
    (sj : Bool) (n : ℕ) :
    ∀ (cands : List ℕ) (e : ℕ × ℝ), e ∈ topKAux minMode vals idx r sj n cands →
      e.1 ∈ cands ∧ e.2 = vals.getD e.1 0 := by
  induction n with
  | zero =>
    intro cands e he
    simp [topKAux] at he
  | succ n ih =>
    intro cands e he
    rw [topKAux] at he
    split at he
    · simp at he
    · rename_i p hsel
      simp only [List.mem_cons] at he
      rcases he with rfl | he
      · refine ⟨?_, rfl⟩
        cases minMode
        · simp only [Bool.cond_false] at hsel
          exact List.argmax_mem (by rw [hsel]; rfl)
        · simp only [Bool.cond_true] at hsel
          exact List.argmin_mem (by rw [hsel]; rfl)
      · obtain ⟨h1, h2⟩ := ih _ _ he
        exact ⟨List.mem_of_mem_filter h1, h2⟩

theorem topKAux_sorted (vals : List ℝ) (idx : List ℕ) (r : ℕ) (sj : Bool) (n : ℕ) :
    ∀ cands : List ℕ,
      List.Pairwise (fun a b : ℕ × ℝ => a.2 ≤ b.2) (topKAux true vals idx r sj n cands) := by
  induction n with
  | zero =>
    intro cands
    simp [topKAux]
  | succ n ih =>
    intro cands
    rw [topKAux]
    split
    · exact List.Pairwise.nil
    · rename_i p hsel
      simp only [Bool.cond_true] at hsel
      refine List.Pairwise.cons ?_ (ih _)
      intro b hb
      obtain ⟨hb1, hb2⟩ := topKAux_mem true vals idx r sj n _ b hb
      have hbc : b.1 ∈ cands := List.mem_of_mem_filter hb1
      have := List.le_of_mem_argmin hbc (show p ∈ _ by rw [hsel]; rfl)
      simpa [hb2] using this

theorem topKAux_spacing (minMode : Bool) (vals : List ℝ) (idx : List ℕ) (r : ℕ)
    (sj : Bool) (n : ℕ) :
    ∀ cands : List ℕ,
      List.Pairwise (fun a b : ℕ × ℝ => r < (((b.1 : ℤ) - (a.1 : ℤ)).natAbs))
        (topKAux minMode vals idx r sj n cands) := by
  induction n with
  | zero =>
    intro cands
    simp [topKAux]
  | succ n ih =>
    intro cands
    rw [topKAux]
    split
    · exact List.Pairwise.nil
    · rename_i p hsel
      refine List.Pairwise.cons ?_ (ih _)
      intro b hb
      obtain ⟨hb1, _⟩ := topKAux_mem minMode vals idx r sj n _ b hb
      have hf := List.mem_filter.1 hb1
      have hcond := hf.2
      simp only [Bool.and_eq_true, decide_eq_true_eq] at hcond
      exact hcond.1

theorem topKAux_mirror (minMode : Bool) (vals : List ℝ) (idx : List ℕ) (r : ℕ) (n : ℕ) :
    ∀ cands : List ℕ,
      List.Pairwise (fun a b : ℕ × ℝ => r < (((b.1 : ℤ) - (idx.getD a.1 0 : ℤ)).natAbs))
        (topKAux minMode vals idx r true n cands) := by
  induction n with
  | zero =>
    intro cands
    simp [topKAux]
  | succ n ih =>
    intro cands
    rw [topKAux]
    split
    · exact List.Pairwise.nil
    · rename_i p hsel
      refine List.Pairwise.cons ?_ (ih _)
      intro b hb
      obtain ⟨hb1, _⟩ := topKAux_mem minMode vals idx r true n _ b hb
      have hf := List.mem_filter.1 hb1
      have hcond := hf.2
      simp only [Bool.not_true, Bool.false_or, Bool.and_eq_true, decide_eq_true_eq] at hcond
      exact hcond.2

theorem length_filter_lt_of_mem_not_pred {α : Type} {l : List α} {p : α → Bool} {x : α}
    (hx : x ∈ l) (hpx : p x = false) : (l.filter p).length < l.length := by
  induction l with
  | nil => cases hx
  | cons a l ih =>
    rcases List.mem_cons.1 hx with rfl | hx'
    · rw [List.filter_cons, hpx]
      exact Nat.lt_succ_of_le (List.length_filter_le p l)
    · rw [List.filter_cons]
      cases hpa : p a
      · exact Nat.lt_succ_of_lt (ih hx')
      · simpa using Nat.succ_lt_succ (ih hx')

theorem topKAux_length (minMode : Bool) (vals : List ℝ) (idx : List ℕ) (r : ℕ)
    (sj : Bool) (n : ℕ) :
    ∀ cands : List ℕ,
      (topKAux minMode vals idx r sj n cands).length ≤ min n cands.length := by
  induction n with
  | zero =>
    intro cands
    simp [topKAux]
  | succ n ih =>
    intro cands
    rw [topKAux]
    split
    · simp
    · rename_i p hsel
      have hpc : p ∈ cands := by
        cases minMode
        · simp only [Bool.cond_false] at hsel
          exact List.argmax_mem (by rw [hsel]; rfl)
        · simp only [Bool.cond_true] at hsel
          exact List.argmin_mem (by rw [hsel]; rfl)
      have hpf : (fun x : ℕ => decide (r < ((x : ℤ) - (p : ℤ)).natAbs) &&
          (!sj || decide (r < ((x : ℤ) - (idx.getD p 0 : ℤ)).natAbs))) p = false := by
        simp
      have hlt : (cands.filter (fun x : ℕ => decide (r < ((x : ℤ) - (p : ℤ)).natAbs) &&
          (!sj || decide (r < ((x : ℤ) - (idx.getD p 0 : ℤ)).natAbs)))).length < cands.length :=
        length_filter_lt_of_mem_not_pred hpc hpf
      have htail := ih (cands.filter (fun x : ℕ => decide (r < ((x : ℤ) - (p : ℤ)).natAbs) &&
          (!sj || decide (r < ((x : ℤ) - (idx.getD p 0 : ℤ)).natAbs))))
      simp only [List.length_cons]
      omega

theorem topKAux_idx_irrelevant (minMode : Bool) (vals : List ℝ) (idx idx' : List ℕ)
    (r : ℕ) (n : ℕ) :
    ∀ cands : List ℕ,
      topKAux minMode vals idx r false n cands = topKAux minMode vals idx' r false n cands := by
  induction n with
  | zero =>
    intro cands
    rfl
  | succ n ih =>
    intro cands
    rw [topKAux, topKAux]
    split
    · rfl
    · rename_i p hsel
      simp only [Bool.not_false, Bool.true_or, Bool.and_true]
      rw [ih]

/-- **C1.** For every query `q` with nonzero standard deviation and
every series `t` (window length `m = len q`), the distance profile
returned by `mass` at each position `i` equals
`sqrt(max(0, 2*m*(1 - (dot[i] - m*meanQ*meanT[i]) / (m*stdQ*stdT[i]))))`
with `dot[i]` the sliding dot product and mean/std the sliding
statistics; and every returned distance is non-negative thanks to the
clamp to zero. -/
theorem mass_formula_and_nonneg (q t : List ℚ) (i : ℕ)
    (_hq : winVar q q.length 0 ≠ 0) (hi : i < t.length - q.length + 1) :
    (mass q t).getD i 0 =
      Real.sqrt (max 0 (2 * (q.length : ℝ) *
        (1 - (((slidingDot q t i : ℚ) : ℝ) -
            (q.length : ℝ) * ((winMean q q.length 0 : ℚ) : ℝ) *
              ((winMean t q.length i : ℚ) : ℝ)) /
          ((q.length : ℝ) * winStd q q.length 0 * winStd t q.length i)))) ∧
    ∀ d ∈ mass q t, 0 ≤ d := by
  constructor
  · rw [mass_getD q t i hi]
    unfold massDistAt
    rw [convDot_eq_slidingDot]
  · intro d hd
    obtain ⟨p, _, rfl⟩ := List.mem_map.1 hd
    exact Real.sqrt_nonneg _

theorem mass_formula_and_nonneg_witness :
    0 ≤ (mass [1, 2] [1, 2, 1]).getD 0 0 := by
  rw [(mass_formula_and_nonneg [1, 2] [1, 2, 1] 0
    (by norm_num [winVar, winSumSq, winMean, winSum, Finset.sum_range_succ])
    (by decide)).1]
  exact Real.sqrt_nonneg _

/-- **C2.** For every query `q` and series `t` (nondegenerate windows),
the distance profile computed by `mass` through the convolution shortcut
agrees, within tolerance `1e-5` at every position, with the direct
`O(n·m)` z-normalized Euclidean distance definition — in this exact
embedding the two are equal, so every fixed tolerance is met. -/
theorem mass_agrees_with_naive (q t : List ℚ) (i : ℕ) (hm : 0 < q.length)
    (hvq : 0 < winVar q q.length 0) (hvt : 0 < winVar t q.length i)
    (hi : i < t.length - q.length + 1) :
    |(mass q t).getD i 0 - naiveDistAt q t i| ≤ 1 / 100000 := by
  have heq : (mass q t).getD i 0 = naiveDistAt q t i := by
    rw [mass_getD q t i hi, massDistAt_eq_distZ,
      distZ_eq_sqrt_znorm_sum q t q.length 0 i hm hvq hvt]
    unfold naiveDistAt
    congr 1
    apply Finset.sum_congr rfl
    intro k _
    rw [Nat.zero_add]
  rw [heq, sub_self, abs_zero]
  norm_num

theorem mass_agrees_with_naive_witness :
    |(mass [1, 2] [1, 2, 1]).getD 0 0 - naiveDistAt [1, 2] [1, 2, 1] 0| ≤ 1 / 100000 :=
  mass_agrees_with_naive [1, 2] [1, 2, 1] 0 (by decide)
    (by norm_num [winVar, winSumSq, winMean, winSum, Finset.sum_range_succ])
    (by norm_num [winVar, winSumSq, winMean, winSum, Finset.sum_range_succ])
    (by decide)

theorem stomp_shape_consistent_witness :
    (stomp [1, 2, 3] [1, 2] 2).1.length = 2 :=
  (stomp_shape_consistent [1, 2, 3] [1, 2] 2).1

/-- **C5.** For every batch of queries and series and every requested
count `n`, the occurrences returned by `findBestNOccurrences` for each
(query, series) pair are in non-decreasing distance order, and no two
returned positions for the same pair are closer to each other than the
exclusion radius `r`. -/
theorem findBestNOccurrences_sorted_and_spaced (qs ts : List (List ℚ)) (n r : ℕ) :
    (findBestNOccurrences qs ts n r).Forall (fun row =>
      row.Forall (fun res =>
        List.Pairwise (fun a b : ℕ × ℝ => a.2 ≤ b.2) res ∧
        List.Pairwise (fun a b : ℕ × ℝ => r ≤ (((b.1 : ℤ) - (a.1 : ℤ)).natAbs)) res)) := by
  rw [List.forall_iff_forall_mem]
  intro row hrow
  rw [List.forall_iff_forall_mem]
  intro res hres
  unfold findBestNOccurrences at hrow
  obtain ⟨t, _, rfl⟩ := List.mem_map.1 hrow
  obtain ⟨q, _, rfl⟩ := List.mem_map.1 hres
  unfold findBestNOccurrencesPair
  constructor
  · exact topKAux_sorted (mass q t) [] r false n _
  · exact (topKAux_spacing true (mass q t) [] r false n _).imp (fun h => Nat.le_of_lt h)

/-- **C6.** For every matrix profile with index array and every `n`,
`findBestNMotifs` with `selfJoin = true` never reports the mirror of an
already-reported motif pair as a distinct motif: every later selection
lies strictly outside the exclusion radius around the mirrored match
index (and around the position itself) of every earlier selection. -/
theorem findBestNMotifs_selfJoin_no_mirror (profile : List ℝ) (index : List ℕ) (m n : ℕ) :
    List.Pairwise (fun a b : ℕ × ℝ =>
        m / 4 < (((b.1 : ℤ) - (index.getD a.1 0 : ℤ)).natAbs) ∧
        m / 4 < (((b.1 : ℤ) - (a.1 : ℤ)).natAbs))
      (findBestNMotifs profile index m n true) := by
  unfold findBestNMotifs
  exact (topKAux_mirror true profile index (m / 4) n _).and
    (topKAux_spacing true profile index (m / 4) true n _)

/-- **C8.** For every input profile and requested count `n`, the top-N
extraction operations are total and return at most `min n #candidates`
entries: when fewer than `n` valid candidate positions exist they
return a shorter result instead of failing. -/
theorem topk_insufficient_data_short_result (q t : List ℚ) (profile : List ℝ)
    (index : List ℕ) (m n r : ℕ) (sj : Bool) :
    (findBestNOccurrencesPair q t n r).length ≤ min n (mass q t).length ∧
    (findBestNMotifs profile index m n sj).length ≤ min n profile.length ∧
    (findBestNDiscords profile index m n sj).length ≤ min n profile.length := by
  refine ⟨?_, ?_, ?_⟩
  · have h := topKAux_length true (mass q t) [] r false n (List.range (mass q t).length)
    simpa using h
  · have h := topKAux_length true profile index (m / 4) sj n (List.range profile.length)
    simpa using h
  · have h := topKAux_length false profile index (m / 4) sj n (List.range profile.length)
    simpa using h

/-- **C9.** Calling `findBestNMotifs` / `findBestNDiscords` without the
`selfJoin` argument behaves exactly as `selfJoin = false` (the declared
default in `matrix.h`), and in that mode no mirror-region exclusion is
applied: the result does not depend on the index array at all. -/
theorem findBestN_default_selfJoin (profile : List ℝ) (index : List ℕ) (m n : ℕ) :
    findBestNMotifsDefault profile index m n = findBestNMotifs profile index m n false ∧
    findBestNDiscordsDefault profile index m n = findBestNDiscords profile index m n false ∧
    (∀ index' : List ℕ,
      findBestNMotifs profile index m n false = findBestNMotifs profile index' m n false) ∧
    (∀ index' : List ℕ,
      findBestNDiscords profile index m n false = findBestNDiscords profile index' m n false) := by
  refine ⟨rfl, rfl, ?_, ?_⟩
  · intro index'
    unfold findBestNMotifs
    exact topKAux_idx_irrelevant true profile index index' (m / 4) n _
  · intro index'
    unfold findBestNDiscords
    exact topKAux_idx_irrelevant false profile index index' (m / 4) n _

/-- **C7.** The sliding-statistics computation fails with
`InvalidWindow` exactly when `m < 2` or `m > len(series)`, succeeds
otherwise with mean and standard-deviation sequences of length
`len(series) - m + 1`, and the operations depending on it (`mass`, both
`stomp` entry points) fail with `InvalidWindow` under exactly the same
condition on their window. -/
theorem slidingStats_invalid_window (q t ta tb : List ℚ) (m : ℕ) :
    (slidingStats t m = .error .InvalidWindow ↔ (m < 2 ∨ t.length < m)) ∧
    (slidingStats t m = .ok (movMean t m, movStd t m) ↔ (2 ≤ m ∧ m ≤ t.length)) ∧
    (movMean t m).length = t.length - m + 1 ∧
    (movStd t m).length = t.length - m + 1 ∧
    (massChecked q t = .error .InvalidWindow ↔ (q.length < 2 ∨ t.length < q.length)) ∧
    (stompChecked ta tb m = .error .InvalidWindow ↔ (m < 2 ∨ ta.length < m ∨ tb.length < m)) ∧
    (stompSelfChecked t m = .error .InvalidWindow ↔ (m < 2 ∨ t.length < m)) := by
  refine ⟨?_, ?_, by simp [movMean], by simp [movStd], ?_, ?_, ?_⟩
  · by_cases h : m < 2 ∨ t.length < m
    · simp [slidingStats, h]
    · simp [slidingStats, h]
  · by_cases h : m < 2 ∨ t.length < m
    · simp only [slidingStats, if_pos h]
      constructor
      · intro hcontra
        cases hcontra
      · intro hcontra
        omega
    · simp only [slidingStats, if_neg h]
      constructor
      · intro _
        omega
      · intro _
        trivial
  · by_cases h : q.length < 2 ∨ t.length < q.length
    · simp [massChecked, slidingStats, h]
    · simp [massChecked, slidingStats, h]
  · by_cases ha : m < 2 ∨ ta.length < m
    · by_cases hb : m < 2 ∨ tb.length < m
      · simp [stompChecked, slidingStats, ha, hb]
        omega
      · simp [stompChecked, slidingStats, ha, hb]
        omega
    · by_cases hb : m < 2 ∨ tb.length < m
      · simp [stompChecked, slidingStats, ha, hb]
        omega
      · simp [stompChecked, slidingStats, ha, hb]
        omega
  · by_cases h : m < 2 ∨ t.length < m
    · simp [stompSelfChecked, slidingStats, h]
    · simp [stompSelfChecked, slidingStats, h]

end matrix

namespace library

theorem backend_toInt_ofInt {i : Int} {b : Backend} (h : backendOfInt i = some b) :
    Backend.toInt b = i := by
  unfold backendOfInt at h
  split_ifs at h with h0 h1 h2 h4
  · injection h with h'
    subst h'
    rw [h0]
    rfl
  · injection h with h'
    subst h'
    rw [h1]
    rfl
  · injection h with h'
    subst h'
    rw [h2]
    rfl
  · injection h with h'
    subst h'
    rw [h4]
    rfl

/-- **C10.** At the C binding layer, `set_backend` followed by
`get_backend` round-trips: for every integer backend value accepted by
the library, after `set_backend` the stored backend reads back as the
same integer, the rest of the configuration is untouched, and
`get_backend` writes exactly the current backend cast to `int` while
modifying nothing else. -/
theorem set_get_backend_roundtrip (s : LibraryState) (i : Int) (b : Backend)
    (h : backendOfInt i = some b) :
    (∃ s' : LibraryState, set_backend i s = some s' ∧
      get_backend s' = (i, s') ∧
      s'.backend = b ∧ s'.device = s.device ∧ s'.memoryGB = s.memoryGB) ∧
    (∀ s₀ : LibraryState, get_backend s₀ = ((getBackend s₀).toInt, s₀)) := by
  refine ⟨⟨setBackend b s, ?_, ?_, rfl, rfl, rfl⟩, fun s₀ => rfl⟩
  · unfold set_backend
    rw [h]
    rfl
  · have hti := backend_toInt_ofInt h
    simp [get_backend, getBackend, setBackend, hti]

theorem set_get_backend_roundtrip_witness :
    ∃ s' : LibraryState, set_backend 2 ⟨Backend.cpu, 0, 4⟩ = some s' ∧
      get_backend s' = (2, s') ∧
      s'.backend = Backend.cuda ∧
      s'.device = (LibraryState.mk Backend.cpu 0 4).device ∧
      s'.memoryGB = (LibraryState.mk Backend.cpu 0 4).memoryGB :=
  (set_get_backend_roundtrip ⟨Backend.cpu, 0, 4⟩ 2 Backend.cuda (by decide)).1

end library

end khiva
